import Mathlib

/-!
Verification development for the fixly real-time audio session pipeline.

This file gives a shallow embedding, in Lean, of the sequencing core of the
repository and proves the specified properties about it:

* `StreamService` (src/backend/services/stream_service.py) — the playback
  reorder buffer ("SequencedBuffer" in the design document): `buffer`,
  its cascading drain loop, and `send_audio`.
* `GptService.completion` (src/backend/services/gpt_service.py) — the
  completion streamer that segments the token stream into speech chunks
  at pause markers.
* `TextToSpeechService.generate` (src/phone-service/services/tts_service.py)
  — the synthesis dispatcher, in particular its skip-on-empty-text guard.
* `handle_message` / `handle_utterance` (src/phone-service/app.py) — the
  per-session websocket message dispatch and the interruption handler.

Python dictionaries are embedded as association lists where the most recent
binding is consed at the front (lookup takes the first match, which agrees
with dict assignment semantics; the source never deletes entries).  Strings
manipulated character-by-character by the source are embedded as `List Char`.
The audio payload type is a type parameter `α` throughout, since the source
never inspects audio bytes.
-/

namespace Fixly

/-! ## StreamService (src/backend/services/stream_service.py)

State of one `StreamService` instance.  The constructor sets
`expected_audio_index = 0`, `audio_buffer = {}`, `stream_sid = ''`. -/

structure StreamState (α : Type) where
  expected_audio_index : Nat
  audio_buffer : List (Nat × α)
  stream_sid : String
  deriving Repr, DecidableEq

/-- The freshly constructed service: `__init__` in the source. -/
def StreamState.init (α : Type) : StreamState α :=
  { expected_audio_index := 0, audio_buffer := [], stream_sid := "" }

/-- Dict lookup: first (i.e. most recent) binding of the key wins. -/
def lookupBuf {α : Type} (b : List (Nat × α)) (k : Nat) : Option α :=
  (b.find? (fun p => p.1 == k)).map (·.2)

/-- An upper bound on every key present in the buffer. -/
def bufMax {α : Type} (b : List (Nat × α)) : Nat :=
  b.foldr (fun p m => max p.1 m) 0

/-- The cascading drain loop of `StreamService.buffer`:

```python
while self.expected_audio_index in self.audio_buffer:
    buffered_audio = self.audio_buffer[self.expected_audio_index]
    self.send_audio(buffered_audio)
    self.expected_audio_index += 1
```

The loop never modifies `audio_buffer` (the source has no `del`).  It is
embedded with explicit fuel; `drain` below supplies `bufMax + 1 - expected`
fuel, which is enough (see `drainFuel_guard_false`): once
`expected_audio_index` exceeds every key of the buffer the membership test
fails, so the fueled recursion computes exactly the while loop.  The returned
list is the sequence of audio payloads passed to `send_audio`, in call
order. -/
def drainFuel {α : Type} : Nat → StreamState α → StreamState α × List α
  | 0, s => (s, [])
  | fuel + 1, s =>
    match lookupBuf s.audio_buffer s.expected_audio_index with
    | none => (s, [])
    | some a =>
      let r := drainFuel fuel
        { s with expected_audio_index := s.expected_audio_index + 1 }
      (r.1, a :: r.2)

def drain {α : Type} (s : StreamState α) : StreamState α × List α :=
  drainFuel (bufMax s.audio_buffer + 1 - s.expected_audio_index) s

/-- `StreamService.buffer(index, audio)` (lines 23–43 of the source).

```python
if index is None:
    self.send_audio(audio)
elif index == self.expected_audio_index:
    self.send_audio(audio)
    self.expected_audio_index += 1
    while ...: drain
else:
    self.audio_buffer[index] = audio
```

Returns the successor state together with the list of audio payloads passed
to `send_audio` by this call, in call order.  Note the `else` branch stores
the chunk even when `index < expected_audio_index`. -/
def buffer {α : Type} (s : StreamState α) (index : Option Nat) (audio : α) :
    StreamState α × List α :=
  match index with
  | none => (s, [audio])
  | some i =>
    if i = s.expected_audio_index then
      let r := drain { s with expected_audio_index := s.expected_audio_index + 1 }
      (r.1, audio :: r.2)
    else
      ({ s with audio_buffer := (i, audio) :: s.audio_buffer }, [])

/-- Run a sequence of `buffer` calls, concatenating the emissions. -/
def runBuffer {α : Type} (s : StreamState α) :
    List (Option Nat × α) → StreamState α × List α
  | [] => (s, [])
  | (i, a) :: rest =>
    let r1 := buffer s i a
    let r2 := runBuffer r1.1 rest
    (r2.1, r1.2 ++ r2.2)

/-- One outbound frame or notification produced by `send_audio`. -/
inductive AudioFrame (α : Type) where
  | media (streamSid : String) (payload : α)
  | mark (streamSid : String) (label : String)
  | audiosent (label : String)
  deriving Repr, DecidableEq

/-- `StreamService.send_audio(audio)` (lines 45–80 of the source): if
`stream_sid` is falsy (the empty string) it logs a warning and returns
without doing anything; if the websocket reference is unavailable it likewise
returns; otherwise it sends one media frame and one mark frame tagged with
`stream_sid` and then publishes an `audiosent` notification carrying the
mark label.  The mark label is a fresh uuid in the source; it is passed in
as a parameter here.  The whole body is wrapped in `try/except`, so the call
always returns normally; the embedding is a total function. -/
def send_audio {α : Type} (s : StreamState α) (wsAvailable : Bool) (audio : α)
    (label : String) : List (AudioFrame α) :=
  if s.stream_sid = "" then []
  else if !wsAvailable then []
  else [AudioFrame.media s.stream_sid audio,
        AudioFrame.mark s.stream_sid label,
        AudioFrame.audiosent label]

/-! ## GptService.completion (src/backend/services/gpt_service.py)

The chunk-segmentation loop of `completion` (lines 58–73): tokens stream
in; whenever the stripped current token ends with the pause marker `•`, or
the stream reports `finish_reason == 'stop'`, the accumulated partial text
is packaged into a reply carrying `self.partial_response_index`, the index
is incremented, and the partial buffer is cleared.

Text handled character-by-character is embedded as `List Char`.
`isPyWS` is Python's `str.strip()` whitespace on the ASCII range (the
additional Unicode space characters Python strips are not modelled). -/

def isPyWS (c : Char) : Bool :=
  c = ' ' || c = '\t' || c = '\n' || c = '\r' || c = '\x0b' || c = '\x0c'

/-- Python's `str.strip()`: drop leading and trailing whitespace. -/
def pyStrip (l : List Char) : List Char :=
  ((l.dropWhile isPyWS).reverse.dropWhile isPyWS).reverse

/-- One element of the model's token stream: `chunk.choices[0].delta.content
or ''` and `chunk.choices[0].finish_reason`. -/
structure TokenChunk where
  content : List Char
  finish_reason : Option String
  deriving Repr, DecidableEq

/-- One `gptreply` event payload: `partial_response_index` and
`partial_response` in the source (renamed `chunk_index` / `chunk_text`). -/
structure GptReply where
  chunk_index : Nat
  chunk_text : List Char
  deriving Repr, DecidableEq

/-- `GptService.__init__` sets `self.partial_response_index = 0`; the field
is never reset afterwards — `completion` only increments it. -/
def initialResponseIndex : Nat := 0

/-- The emission condition of the loop body, line 66 of the source:
`content.strip() and content.strip()[-1] == '•' or finish_reason == 'stop'`
(Python precedence: `(strip truthy and last == '•') or finish == 'stop'`). -/
def chunkBoundary (c : TokenChunk) : Bool :=
  (!(pyStrip c.content).isEmpty &&
    ((pyStrip c.content).getLast? == some '•')) ||
  (c.finish_reason == some "stop")

/-- The `async for chunk in stream` loop of `completion`: `idx` carries
`self.partial_response_index`, `acc` the `partial_response` buffer.
Returns the final index together with the emitted replies in order. -/
def completionLoop (idx : Nat) (acc : List Char) :
    List TokenChunk → Nat × List GptReply
  | [] => (idx, [])
  | c :: rest =>
    if chunkBoundary c then
      ((completionLoop (idx + 1) [] rest).1,
       ⟨idx, acc ++ c.content⟩ :: (completionLoop (idx + 1) [] rest).2)
    else
      completionLoop idx (acc ++ c.content) rest

/-- `GptService.completion` entered with the service's current
`partial_response_index` equal to `idx0`: the partial buffer starts empty;
the final index is the service's `partial_response_index` after the call. -/
def completion (idx0 : Nat) (stream : List TokenChunk) :
    Nat × List GptReply :=
  completionLoop idx0 [] stream

/-! Specification-side segmentation (for the refinement claim about chunk
boundaries).  The design document declares a boundary when "the most recent
non-whitespace accumulated character is a designated pause marker, or the
stream reports completion"; `specCompletionLoop` transcribes those words,
testing the accumulated partial-chunk buffer rather than the current
token. -/

/-- The most recent non-whitespace character of a text, if any. -/
def lastNonWS (l : List Char) : Option Char :=
  (l.reverse.dropWhile isPyWS).head?

def specBoundary (accumulated : List Char) (c : TokenChunk) : Bool :=
  (lastNonWS accumulated == some '•') || (c.finish_reason == some "stop")

def specCompletionLoop (idx : Nat) (acc : List Char) :
    List TokenChunk → Nat × List GptReply
  | [] => (idx, [])
  | c :: rest =>
    if specBoundary (acc ++ c.content) c then
      ((specCompletionLoop (idx + 1) [] rest).1,
       ⟨idx, acc ++ c.content⟩ :: (specCompletionLoop (idx + 1) [] rest).2)
    else
      specCompletionLoop idx (acc ++ c.content) rest

def specCompletion (idx0 : Nat) (stream : List TokenChunk) :
    Nat × List GptReply :=
  specCompletionLoop idx0 [] stream

/-! ## TextToSpeechService.generate (src/phone-service/services/tts_service.py)

`generate(gpt_reply, interaction_count)` reads `partial_response_index` and
`partial_response` from the reply dict and returns immediately when the text
is empty (`if not partial_response: return`) — so no synthesis request is
made and no `speech` event is emitted for an empty chunk.  On a successful
synthesis call it emits `('speech', partial_response_index, audio,
partial_response, interaction_count)`.  The synthesis network call is
abstracted by the function `synthesize`; a failed call (non-200 or
transport error) would also produce no event, which is subsumed by
modelling only the success path plus the empty-text skip needed here. -/

structure TtsRequest where
  chunk_index : Option Nat
  chunk_text : List Char
  deriving Repr, DecidableEq

def generate {α : Type} (synthesize : List Char → α) (r : TtsRequest) :
    Option (Option Nat × α × List Char) :=
  if r.chunk_text.isEmpty then none
  else some (r.chunk_index, synthesize r.chunk_text, r.chunk_text)

/-! ## Phone-service session handlers (src/phone-service/app.py) -/

/-- The per-connection record created in `websocket_endpoint`, restricted to
the fields the handlers touch: `stream_sid`, `call_sid`, the
`StreamService`'s `stream_sid` (a string, or `None` if a `start` event
carried no `streamSid`), the call sids appended to the GPT context by
`set_call_sid`, and the outstanding-marks list. -/
structure PhoneConn where
  stream_sid : Option String
  call_sid : Option String
  ss_stream_sid : Option String
  gpt_call_sids : List (Option String)
  marks : List String
  deriving Repr, DecidableEq

/-- A freshly registered connection: both sids `None`, the stream service's
own sid the empty string, no marks. -/
def PhoneConn.init : PhoneConn :=
  { stream_sid := none, call_sid := none, ss_stream_sid := some "",
    gpt_call_sids := [], marks := [] }

/-- An inbound websocket message after JSON parsing: the `event` field
dispatched on by `handle_message`, with the fields each branch reads
(each an `Option` because the source uses `dict.get`).  `other` is a
well-formed JSON object whose `event` is none of the four known kinds;
`invalidJson` is a frame that fails to parse. -/
inductive InMsg where
  | start (streamSid : Option String) (callSid : Option String)
  | media (payload : Option String)
  | mark (name : Option String)
  | stop (streamSid : Option String)
  | other (event : Option String)
  | invalidJson
  deriving Repr, DecidableEq

/-- Observable effects of one `handle_message` call. -/
inductive MsgEffect where
  | forwardToTranscription (payload : String)
  | logInfo (tag : String)
  | logError (tag : String)
  deriving Repr, DecidableEq

/-- `handle_message` (lines 176–219 of src/phone-service/app.py).  `start`
stores both sids, pushes the stream sid into the stream service and the
call sid into the GPT context, and logs; `media` forwards a truthy payload
to the transcription service; `mark` removes the first occurrence of a
known mark name; `stop` only logs; an unrecognized event matches no branch
and falls through silently; invalid JSON is caught and logged.  Every
branch returns normally (the body is wrapped in `try/except`). -/
def handle_message (c : PhoneConn) (m : InMsg) : PhoneConn × List MsgEffect :=
  match m with
  | .start ssid csid =>
    ({ c with
        stream_sid := ssid,
        call_sid := csid,
        ss_stream_sid := ssid,
        gpt_call_sids := c.gpt_call_sids ++ [csid] },
     [.logInfo "call started"])
  | .media payload =>
    match payload with
    | some p => if p ≠ "" then (c, [.forwardToTranscription p]) else (c, [])
    | none => (c, [])
  | .mark name =>
    match name with
    | some nm =>
      if nm ≠ "" ∧ nm ∈ c.marks then
        ({ c with marks := c.marks.erase nm }, [])
      else (c, [])
    | none => (c, [])
  | .stop _ => (c, [.logInfo "media stream ended"])
  | .other _ => (c, [])
  | .invalidJson => (c, [.logError "invalid json"])

/-- Observable effects of one `handle_utterance` call. -/
inductive UtterEffect where
  | logInterruption
  | clear (streamSid : Option String)
  deriving Repr, DecidableEq

/-- `handle_utterance` (lines 227–233 of src/phone-service/app.py): on an
interim transcript, when the outstanding-marks list is non-empty, the text
truthy and longer than 5 characters, it logs and sends one
`{streamSid, event: 'clear'}` frame.  It touches no connection state: the
marks list is not cleared and no reset of the stream service is invoked
(the `StreamService` class has no reset method). -/
def handle_utterance (c : PhoneConn) (text : String) :
    PhoneConn × List UtterEffect :=
  if ¬c.marks.isEmpty ∧ text ≠ "" ∧ 5 < text.length then
    (c, [.logInterruption, .clear c.stream_sid])
  else
    (c, [])

/-! ## Least-missing-index machinery

`leastFrom e S` is the least `j ≥ e` that is not in the finite set `S`.
After a set `S` of sequence numbers has been submitted to the reorder
buffer, `expected_audio_index` equals `leastFrom 0 S`. -/

def exists_add_not_mem (e : Nat) (S : Finset Nat) : ∃ m, e + m ∉ S := by
  refine ⟨S.sup id + 1, fun hmem => ?_⟩
  have h : id (e + (S.sup id + 1)) ≤ S.sup id := Finset.le_sup hmem
  simp only [id] at h
  omega

def leastFrom (e : Nat) (S : Finset Nat) : Nat :=
  e + Nat.find (exists_add_not_mem e S)

/-! ## The reorder-buffer invariant

`BufInv f S s out` relates a reachable `StreamService` state `s` and its
cumulative emission list `out` to the set `S` of sequence numbers submitted
so far (each index `i` submitted with payload `f i`):

1. `expected_audio_index` is the least index not yet submitted;
2. exactly the payloads of indices `0, …, expected-1` have been emitted,
   in index order (so each is released exactly once and none twice);
3. looking up any index `≥ expected` in the buffer finds the submitted
   payload exactly when that index has been submitted;
4. every entry of the buffer stores a submitted index with its payload. -/

def BufInv {α : Type} (f : Nat → α) (S : Finset Nat) (s : StreamState α)
    (out : List α) : Prop :=
  s.expected_audio_index = leastFrom 0 S ∧
  out = (List.range s.expected_audio_index).map f ∧
  (∀ j, s.expected_audio_index ≤ j →
    lookupBuf s.audio_buffer j = if j ∈ S then some (f j) else none) ∧
  (∀ p ∈ s.audio_buffer, p.1 ∈ S ∧ p.2 = f p.1)


/-! Theorems. -/

theorem le_bufMax_of_lookup {α : Type} {b : List (Nat × α)} {k : Nat} {a : α}
    (h : lookupBuf b k = some a) : k ≤ bufMax b := by
  induction b with
  | nil => simp [lookupBuf] at h
  | cons p rest ih =>
    unfold lookupBuf at h
    rw [List.find?_cons] at h
    by_cases hk : p.1 == k
    · simp only [hk] at h
      have : p.1 = k := by simpa using hk
      simp [bufMax, List.foldr, ← this, Nat.le_max_left]
    · simp only [hk] at h
      have hrec := ih h
      have : bufMax rest ≤ bufMax (p :: rest) := by
        simp [bufMax, List.foldr, Nat.le_max_right]
      omega

/-- With enough fuel, the drain loop stops because its guard is false, not
because the fuel ran out — so `drain` equals the unbounded while loop. -/
theorem drainFuel_guard_false {α : Type} (fuel : Nat) (s : StreamState α)
    (h : bufMax s.audio_buffer < fuel + s.expected_audio_index) :
    lookupBuf (drainFuel fuel s).1.audio_buffer
      (drainFuel fuel s).1.expected_audio_index = none := by
  induction fuel generalizing s with
  | zero =>
    simp only [drainFuel]
    cases hl : lookupBuf s.audio_buffer s.expected_audio_index with
    | none => rfl
    | some a =>
      have := le_bufMax_of_lookup hl
      omega
  | succ n ih =>
    simp only [drainFuel]
    cases hl : lookupBuf s.audio_buffer s.expected_audio_index with
    | none => exact hl
    | some a =>
      exact ih { s with expected_audio_index := s.expected_audio_index + 1 }
        (by show bufMax s.audio_buffer < n + (s.expected_audio_index + 1); omega)

theorem drain_guard_false {α : Type} (s : StreamState α) :
    lookupBuf (drain s).1.audio_buffer (drain s).1.expected_audio_index = none := by
  unfold drain
  apply drainFuel_guard_false
  omega

theorem leastFrom_le (e : Nat) (S : Finset Nat) : e ≤ leastFrom e S :=
  Nat.le_add_right _ _

theorem leastFrom_not_mem (e : Nat) (S : Finset Nat) : leastFrom e S ∉ S :=
  Nat.find_spec (exists_add_not_mem e S)

theorem mem_of_lt_leastFrom {e j : Nat} {S : Finset Nat}
    (h1 : e ≤ j) (h2 : j < leastFrom e S) : j ∈ S := by
  have h3 : j - e < Nat.find (exists_add_not_mem e S) := by
    unfold leastFrom at h2; omega
  have := Nat.find_min (exists_add_not_mem e S) h3
  simp only [not_not] at this
  have he : e + (j - e) = j := by omega
  rwa [he] at this

/-- Unique characterization of `leastFrom`. -/
theorem leastFrom_eq {e a : Nat} {S : Finset Nat}
    (hle : e ≤ a) (hnot : a ∉ S) (hall : ∀ j, e ≤ j → j < a → j ∈ S) :
    leastFrom e S = a := by
  rcases Nat.lt_trichotomy (leastFrom e S) a with h | h | h
  · exact absurd (hall _ (leastFrom_le e S) h) (leastFrom_not_mem e S)
  · exact h
  · exact absurd (mem_of_lt_leastFrom hle h) hnot

theorem bufInv_init {α : Type} (f : Nat → α) (sid : String) :
    BufInv f ∅ { expected_audio_index := 0, audio_buffer := [], stream_sid := sid } [] := by
  refine ⟨?_, by simp, ?_, by simp⟩
  · exact (leastFrom_eq (Nat.le_refl 0) (Finset.not_mem_empty 0) (by omega)).symm
  · intro j _
    simp [lookupBuf]

/-- What the drain loop computes when clause 3 of the invariant holds for the
submitted set `S`: it fast-forwards `expected_audio_index` to the next index
missing from `S` and emits the submitted payloads in between, in index
order; the buffer itself is untouched. -/
theorem drainFuel_spec {α : Type} (f : Nat → α) (S : Finset Nat) :
    ∀ (fuel : Nat) (s : StreamState α),
    bufMax s.audio_buffer < fuel + s.expected_audio_index →
    (∀ j, s.expected_audio_index ≤ j →
      lookupBuf s.audio_buffer j = if j ∈ S then some (f j) else none) →
    drainFuel fuel s =
      ({ s with expected_audio_index := leastFrom s.expected_audio_index S },
       (List.range' s.expected_audio_index
         (leastFrom s.expected_audio_index S - s.expected_audio_index)).map f) := by
  intro fuel
  induction fuel with
  | zero =>
    intro s hfuel hlook
    by_cases hmem : s.expected_audio_index ∈ S
    · have := hlook s.expected_audio_index (Nat.le_refl _)
      rw [if_pos hmem] at this
      have := le_bufMax_of_lookup this
      omega
    · have hL : leastFrom s.expected_audio_index S = s.expected_audio_index :=
        leastFrom_eq (Nat.le_refl _) hmem (by omega)
      simp [drainFuel, hL]
  | succ n ih =>
    intro s hfuel hlook
    by_cases hmem : s.expected_audio_index ∈ S
    · have hlk := hlook s.expected_audio_index (Nat.le_refl _)
      rw [if_pos hmem] at hlk
      have hle := leastFrom_le s.expected_audio_index S
      have hne : leastFrom s.expected_audio_index S ≠ s.expected_audio_index :=
        fun h => (h ▸ leastFrom_not_mem s.expected_audio_index S) hmem
      have hlt : s.expected_audio_index < leastFrom s.expected_audio_index S := by
        omega
      have hL : leastFrom (s.expected_audio_index + 1) S =
          leastFrom s.expected_audio_index S := by
        refine leastFrom_eq (by omega) (leastFrom_not_mem _ _) ?_
        intro j h1 h2
        exact mem_of_lt_leastFrom (by omega) h2
      have hf : bufMax s.audio_buffer < n + (s.expected_audio_index + 1) := by omega
      have hrec := ih { s with expected_audio_index := s.expected_audio_index + 1 }
        hf (by
          intro j hj
          have hj' : s.expected_audio_index + 1 ≤ j := hj
          exact hlook j (by omega))
      simp only [drainFuel, hlk]
      rw [hrec, hL]
      have hr : List.range' s.expected_audio_index
          (leastFrom s.expected_audio_index S - s.expected_audio_index) =
          s.expected_audio_index :: List.range' (s.expected_audio_index + 1)
            (leastFrom s.expected_audio_index S - (s.expected_audio_index + 1)) := by
        have hn : leastFrom s.expected_audio_index S - s.expected_audio_index =
            (leastFrom s.expected_audio_index S - (s.expected_audio_index + 1)) + 1 := by
          omega
        rw [hn, List.range'_succ]
      rw [hr]
      simp
    · have hL : leastFrom s.expected_audio_index S = s.expected_audio_index :=
        leastFrom_eq (Nat.le_refl _) hmem (by omega)
      have hlk := hlook s.expected_audio_index (Nat.le_refl _)
      rw [if_neg hmem] at hlk
      simp [drainFuel, hlk, hL]

theorem drain_spec {α : Type} (f : Nat → α) (S : Finset Nat) (s : StreamState α)
    (hlook : ∀ j, s.expected_audio_index ≤ j →
      lookupBuf s.audio_buffer j = if j ∈ S then some (f j) else none) :
    drain s =
      ({ s with expected_audio_index := leastFrom s.expected_audio_index S },
       (List.range' s.expected_audio_index
         (leastFrom s.expected_audio_index S - s.expected_audio_index)).map f) := by
  exact drainFuel_spec f S _ s (by omega) hlook

theorem lookupBuf_cons {α : Type} (k : Nat) (a : α) (b : List (Nat × α)) (j : Nat) :
    lookupBuf ((k, a) :: b) j = if k = j then some a else lookupBuf b j := by
  unfold lookupBuf
  rw [List.find?_cons]
  by_cases h : k = j
  · simp [h]
  · simp only []
    have : ((k, a).1 == j) = false := by simpa using h
    simp [this, h]

theorem range'_append_my (a m n : Nat) :
    List.range' a m ++ List.range' (a + m) n = List.range' a (m + n) := by
  induction m generalizing a with
  | zero => simp
  | succ m ih =>
    rw [List.range'_succ, List.cons_append]
    have hm : a + (m + 1) = (a + 1) + m := by omega
    rw [hm, ih (a + 1)]
    have hn : m + 1 + n = (m + n) + 1 := by omega
    rw [hn, List.range'_succ]

/-- One fresh submission preserves the invariant. -/
theorem bufInv_step {α : Type} (f : Nat → α) (S : Finset Nat)
    (s : StreamState α) (out : List α) (k : Nat)
    (hInv : BufInv f S s out) (_hk : k ∉ S) :
    BufInv f (insert k S) (buffer s (some k) (f k)).1
      (out ++ (buffer s (some k) (f k)).2) := by
  obtain ⟨e, b, sid⟩ := s
  obtain ⟨h1, h2, h3, h4⟩ := hInv
  simp only at h1 h2 h3 h4
  have hklb : ∀ j, j < e → j ∈ S := by
    intro j hj
    exact mem_of_lt_leastFrom (Nat.zero_le j) (h1 ▸ hj)
  have heS : e ∉ S := h1 ▸ leastFrom_not_mem 0 S
  by_cases hke : k = e
  · -- the chunk is the next expected one: emit, then cascade-drain
    rw [hke]
    have hlook' : ∀ j, e + 1 ≤ j →
        lookupBuf b j = if j ∈ insert e S then some (f j) else none := by
      intro j hj
      rw [h3 j (by omega)]
      by_cases hjS : j ∈ S
      · rw [if_pos hjS, if_pos (Finset.mem_insert_of_mem hjS)]
      · have hnotin : j ∉ insert e S := by
          simp only [Finset.mem_insert, not_or]
          exact ⟨by omega, hjS⟩
        rw [if_neg hjS, if_neg hnotin]
    have hd := drain_spec f (insert e S) ⟨e + 1, b, sid⟩ (by
      intro j hj
      exact hlook' j hj)
    have hLle : e + 1 ≤ leastFrom (e + 1) (insert e S) := leastFrom_le _ _
    have hL : leastFrom 0 (insert e S) = leastFrom (e + 1) (insert e S) := by
      refine leastFrom_eq (Nat.zero_le _) (leastFrom_not_mem _ _) ?_
      intro j _ hj
      rcases Nat.lt_trichotomy j e with h | h | h
      · exact Finset.mem_insert_of_mem (hklb j h)
      · rw [h]; exact Finset.mem_insert_self e S
      · exact mem_of_lt_leastFrom (by omega) hj
    have hbuf : buffer ⟨e, b, sid⟩ (some e) (f e) =
        (⟨leastFrom (e + 1) (insert e S), b, sid⟩,
         f e :: (List.range' (e + 1)
           (leastFrom (e + 1) (insert e S) - (e + 1))).map f) := by
      simp only [buffer, if_pos rfl]
      rw [show (drain ⟨e + 1, b, sid⟩) =
        (⟨leastFrom (e + 1) (insert e S), b, sid⟩,
         (List.range' (e + 1)
           (leastFrom (e + 1) (insert e S) - (e + 1))).map f) from hd]
      simp
    rw [hbuf]
    refine ⟨hL.symm, ?_, ?_, ?_⟩
    · -- cumulative emissions are the payloads of 0 .. L-1, in order
      show out ++ (f e :: (List.range' (e + 1)
          (leastFrom (e + 1) (insert e S) - (e + 1))).map f) =
        (List.range (leastFrom (e + 1) (insert e S))).map f
      have hstep : f e :: (List.range' (e + 1)
          (leastFrom (e + 1) (insert e S) - (e + 1))).map f =
          (List.range' e (leastFrom (e + 1) (insert e S) - e)).map f := by
        have hn : leastFrom (e + 1) (insert e S) - e =
            (leastFrom (e + 1) (insert e S) - (e + 1)) + 1 := by omega
        rw [hn, List.range'_succ]
        rfl
      rw [hstep, h2, ← List.map_append, List.range_eq_range',
          List.range_eq_range']
      congr 1
      have := range'_append_my 0 e (leastFrom (e + 1) (insert e S) - e)
      rw [Nat.zero_add] at this
      rw [this]
      congr 1
      omega
    · intro j hj
      have hj' : leastFrom (e + 1) (insert e S) ≤ j := hj
      exact hlook' j (by omega)
    · intro p hp
      have := h4 p hp
      exact ⟨Finset.mem_insert_of_mem this.1, this.2⟩
  · -- not the expected chunk: it is stored, nothing is emitted
    have hbuf : buffer ⟨e, b, sid⟩ (some k) (f k) =
        (⟨e, (k, f k) :: b, sid⟩, []) := by
      simp only [buffer, if_neg hke]
    rw [hbuf]
    have hL2 : leastFrom 0 (insert k S) = e := by
      refine leastFrom_eq (Nat.zero_le _) ?_ ?_
      · simp only [Finset.mem_insert, not_or]
        exact ⟨fun h => hke h.symm, heS⟩
      · intro j _ hj
        exact Finset.mem_insert_of_mem (hklb j hj)
    refine ⟨hL2.symm, by simpa using h2, ?_, ?_⟩
    · intro j hj
      have hj' : e ≤ j := hj
      rw [lookupBuf_cons]
      by_cases hkj : k = j
      · rw [if_pos hkj, if_pos (hkj ▸ Finset.mem_insert_self k S), hkj]
      · rw [if_neg hkj, h3 j hj']
        by_cases hjS : j ∈ S
        · rw [if_pos hjS, if_pos (Finset.mem_insert_of_mem hjS)]
        · have hnotin : j ∉ insert k S := by
            simp only [Finset.mem_insert, not_or]
            exact ⟨fun h => hkj h.symm, hjS⟩
          rw [if_neg hjS, if_neg hnotin]
    · intro p hp
      rcases List.mem_cons.mp hp with h | h
      · rw [h]
        exact ⟨Finset.mem_insert_self k S, rfl⟩
      · have := h4 p h
        exact ⟨Finset.mem_insert_of_mem this.1, this.2⟩

/-- Submitting any list of fresh, pairwise-distinct sequence numbers
preserves the invariant. -/
theorem bufInv_run {α : Type} (f : Nat → α) :
    ∀ (subs : List Nat) (S : Finset Nat) (s : StreamState α) (out : List α),
    BufInv f S s out → subs.Nodup → (∀ i ∈ subs, i ∉ S) →
    BufInv f (S ∪ subs.toFinset)
      (runBuffer s (subs.map (fun i => (some i, f i)))).1
      (out ++ (runBuffer s (subs.map (fun i => (some i, f i)))).2) := by
  intro subs
  induction subs with
  | nil =>
    intro S s out hInv _ _
    simpa [runBuffer] using hInv
  | cons i rest ih =>
    intro S s out hInv hnd hfresh
    have hstep := bufInv_step f S s out i hInv (hfresh i (by simp))
    have hrest := ih (insert i S) (buffer s (some i) (f i)).1
      (out ++ (buffer s (some i) (f i)).2) hstep
      (List.nodup_cons.mp hnd).2
      (by
        intro j hj
        simp only [Finset.mem_insert, not_or]
        refine ⟨?_, hfresh j (by simp [hj])⟩
        intro hji
        exact (List.nodup_cons.mp hnd).1 (hji ▸ hj))
    have hset : insert i S ∪ rest.toFinset = S ∪ (i :: rest).toFinset := by
      ext x
      simp [Finset.mem_union, Finset.mem_insert, List.mem_toFinset]
    have hrun : runBuffer s ((i :: rest).map (fun i => (some i, f i))) =
        ((runBuffer (buffer s (some i) (f i)).1
            (rest.map (fun i => (some i, f i)))).1,
         (buffer s (some i) (f i)).2 ++
           (runBuffer (buffer s (some i) (f i)).1
             (rest.map (fun i => (some i, f i)))).2) := by
      simp [runBuffer]
    rw [hrun]
    rw [hset] at hrest
    simpa [List.append_assoc] using hrest

theorem bufInv_initial {α : Type} (f : Nat → α) :
    BufInv f ∅ (StreamState.init α) [] := bufInv_init f ""

/-- C1: for every finite set of `buffer` (submit) calls carrying distinct
sequence numbers `0..N`, delivered in any permutation, the sequence of
emissions (payloads handed to `send_audio`) is exactly the chunks for
`0, 1, …, N` in increasing sequence-number order. -/
theorem buffer_inorder_release {α : Type} (f : Nat → α) (N : Nat)
    (subs : List Nat) (hperm : subs.Perm (List.range (N + 1))) :
    (runBuffer (StreamState.init α) (subs.map (fun i => (some i, f i)))).2 =
      (List.range (N + 1)).map f := by
  have hnd : subs.Nodup := hperm.nodup_iff.mpr (List.nodup_range _)
  have hrun := bufInv_run f subs ∅ (StreamState.init α) []
    (bufInv_initial f) hnd (by simp)
  obtain ⟨g1, g2, _, _⟩ := hrun
  have hset : (∅ ∪ subs.toFinset : Finset Nat) = Finset.range (N + 1) := by
    ext x
    simp [List.mem_toFinset, hperm.mem_iff, List.mem_range, Finset.mem_range]
  have hLN : leastFrom 0 (Finset.range (N + 1)) = N + 1 :=
    leastFrom_eq (Nat.zero_le _) (by simp) (by intro j _ hj; simpa using hj)
  rw [hset, hLN] at g1
  rw [g1] at g2
  simpa using g2

theorem buffer_inorder_release_witness :
    (runBuffer (StreamState.init Nat)
        ([2, 0, 1].map (fun i => (some i, i)))).2 =
      (List.range (2 + 1)).map (fun i => i) :=
  buffer_inorder_release (fun i => i) 2 [2, 0, 1] (by decide)

/-- C2 (amended): after any sequence of submissions with pairwise-distinct
sequence numbers, every chunk with sequence number below
`expected_audio_index` has been released exactly once and in order (the
emission list is exactly the payloads of `0 .. expected-1`), and every
entry of the pending buffer is a submitted index with its payload.  The
original claim's clause that the pending map never holds a key below
`expected_audio_index` is false — see `buffer_pending_stale_key`: drained
entries are never deleted. -/
theorem buffer_released_once (α : Type) (f : Nat → α) (subs : List Nat)
    (hnd : subs.Nodup) :
    (runBuffer (StreamState.init α) (subs.map (fun i => (some i, f i)))).2 =
      (List.range (runBuffer (StreamState.init α)
        (subs.map (fun i => (some i, f i)))).1.expected_audio_index).map f ∧
    ∀ p ∈ (runBuffer (StreamState.init α)
        (subs.map (fun i => (some i, f i)))).1.audio_buffer,
      p.1 ∈ subs ∧ p.2 = f p.1 := by
  have hrun := bufInv_run f subs ∅ (StreamState.init α) []
    (bufInv_initial f) hnd (by simp)
  obtain ⟨_, g2, _, g4⟩ := hrun
  refine ⟨by simpa using g2, ?_⟩
  intro p hp
  have := g4 p hp
  simpa using this

theorem buffer_released_once_witness :
    ((runBuffer (StreamState.init Nat)
        ([1, 0].map (fun i => (some i, i)))).2 =
      (List.range (runBuffer (StreamState.init Nat)
        ([1, 0].map (fun i => (some i, i)))).1.expected_audio_index).map
          (fun i => i) ∧
    ∀ p ∈ (runBuffer (StreamState.init Nat)
        ([1, 0].map (fun i => (some i, i)))).1.audio_buffer,
      p.1 ∈ [1, 0] ∧ p.2 = p.1) :=
  buffer_released_once Nat (fun i => i) [1, 0] (by decide)

/-- C2 counterexample: submit chunk 1 then chunk 0 (a permutation of 0..1).
Both are released, `expected_audio_index` advances to 2, but the pending
map still holds the entry for key 1 — an entry with key `< expectedIndex` —
because the drain loop never deletes entries. -/
theorem buffer_pending_stale_key :
    (runBuffer (StreamState.init Nat)
        [(some 1, 11), (some 0, 10)]).1.expected_audio_index = 2 ∧
    (1, 11) ∈ (runBuffer (StreamState.init Nat)
        [(some 1, 11), (some 0, 10)]).1.audio_buffer ∧
    (1 : Nat) < 2 := by decide

/-- C5: a chunk whose sequence number is strictly below
`expected_audio_index` produces no emission and leaves
`expected_audio_index` unchanged (the embedding is a total function, the
call cannot fail: the source additionally wraps the body in try/except). -/
theorem buffer_stale_no_emit {α : Type} (s : StreamState α) (k : Nat) (a : α)
    (h : k < s.expected_audio_index) :
    (buffer s (some k) a).2 = [] ∧
    (buffer s (some k) a).1.expected_audio_index = s.expected_audio_index := by
  have hne : k ≠ s.expected_audio_index := by omega
  simp [buffer, hne]

theorem buffer_stale_no_emit_witness :
    (0 : Nat) < 2 ∧
    ((buffer (⟨2, [], "sid"⟩ : StreamState Nat) (some 0) 42).2 = [] ∧
     (buffer (⟨2, [], "sid"⟩ : StreamState Nat) (some 0) 42).1.expected_audio_index = 2) :=
  ⟨by decide, buffer_stale_no_emit ⟨2, [], "sid"⟩ 0 42 (by decide)⟩

/-- C6: if chunk `k` is never submitted while chunks with larger sequence
numbers are submitted in any order, then nothing is emitted, no call fails
(the embedding is total), `expected_audio_index` stays at `k`, and the only
state growth is the pending buffer accumulating the submitted chunks. -/
theorem buffer_stall_on_missing {α : Type} :
    ∀ (subs : List (Nat × α)) (s : StreamState α) (k : Nat),
    s.expected_audio_index = k → (∀ p ∈ subs, k < p.1) →
    (runBuffer s (subs.map (fun p => (some p.1, p.2)))).2 = [] ∧
    (runBuffer s (subs.map (fun p => (some p.1, p.2)))).1.expected_audio_index = k ∧
    (runBuffer s (subs.map (fun p => (some p.1, p.2)))).1.audio_buffer =
      subs.reverse ++ s.audio_buffer ∧
    (runBuffer s (subs.map (fun p => (some p.1, p.2)))).1.stream_sid =
      s.stream_sid := by
  intro subs
  induction subs with
  | nil =>
    intro s k hk _
    simp [runBuffer, hk]
  | cons p rest ih =>
    intro s k hk hgt
    have hne : p.1 ≠ s.expected_audio_index := by
      have := hgt p (by simp)
      omega
    have hbuf : buffer s (some p.1) p.2 =
        ({ s with audio_buffer := (p.1, p.2) :: s.audio_buffer }, []) := by
      simp [buffer, hne]
    have hrest := ih { s with audio_buffer := (p.1, p.2) :: s.audio_buffer } k
      hk (by intro q hq; exact hgt q (by simp [hq]))
    simp only [List.map_cons, runBuffer, hbuf]
    refine ⟨by simpa using hrest.1, by simpa using hrest.2.1, ?_,
      by simpa using hrest.2.2.2⟩
    have h3 := hrest.2.2.1
    simp only at h3
    rw [h3]
    simp

theorem buffer_stall_on_missing_witness :
    ((StreamState.init Nat).expected_audio_index = 0 ∧
      ∀ p ∈ [((2 : Nat), (22 : Nat)), (1, 11), (3, 33)], 0 < p.1) ∧
    ((runBuffer (StreamState.init Nat)
        ([((2 : Nat), (22 : Nat)), (1, 11), (3, 33)].map
          (fun p => (some p.1, p.2)))).2 = [] ∧
     (runBuffer (StreamState.init Nat)
        ([((2 : Nat), (22 : Nat)), (1, 11), (3, 33)].map
          (fun p => (some p.1, p.2)))).1.expected_audio_index = 0 ∧
     (runBuffer (StreamState.init Nat)
        ([((2 : Nat), (22 : Nat)), (1, 11), (3, 33)].map
          (fun p => (some p.1, p.2)))).1.audio_buffer =
       [((2 : Nat), (22 : Nat)), (1, 11), (3, 33)].reverse ++
         (StreamState.init Nat).audio_buffer ∧
     (runBuffer (StreamState.init Nat)
        ([((2 : Nat), (22 : Nat)), (1, 11), (3, 33)].map
          (fun p => (some p.1, p.2)))).1.stream_sid =
       (StreamState.init Nat).stream_sid) :=
  ⟨⟨rfl, by decide⟩,
   buffer_stall_on_missing [(2, 22), (1, 11), (3, 33)]
     (StreamState.init Nat) 0 rfl (by decide)⟩

/-- C10: while `stream_sid` is still the empty string (no `start` event
processed yet), `send_audio` sends no media frame, no mark frame, publishes
no `audiosent` notification, and returns normally. -/
theorem send_audio_noop_without_sid {α : Type} (s : StreamState α)
    (ws : Bool) (audio : α) (label : String) (h : s.stream_sid = "") :
    send_audio s ws audio label = [] := by
  simp [send_audio, h]

theorem send_audio_noop_without_sid_witness :
    (StreamState.init Nat).stream_sid = "" ∧
    send_audio (StreamState.init Nat) true (5 : Nat) "marklabel" = [] :=
  ⟨rfl, send_audio_noop_without_sid (StreamState.init Nat) true 5 "marklabel" rfl⟩

/-! Support lemmas for the boundary-equivalence (refinement) theorem. -/

theorem dropWhile_append_split {β : Type} (p : β → Bool) (l₁ l₂ : List β) :
    (l₁ ++ l₂).dropWhile p =
      if (l₁.dropWhile p).isEmpty then l₂.dropWhile p
      else l₁.dropWhile p ++ l₂ := by
  induction l₁ with
  | nil => simp
  | cons a t ih =>
    by_cases hp : p a
    · simpa [List.dropWhile_cons, hp] using ih
    · simp [List.dropWhile_cons, hp]

theorem lastNonWS_append (p c : List Char) :
    lastNonWS (p ++ c) =
      match lastNonWS c with
      | some x => some x
      | none => lastNonWS p := by
  unfold lastNonWS
  rw [List.reverse_append, dropWhile_append_split]
  cases h : c.reverse.dropWhile isPyWS with
  | nil => simp [h]
  | cons a t => simp [h]

theorem head?_dropWhile_false {β : Type} (p : β → Bool) (l : List β) :
    ∀ a, (l.dropWhile p).head? = some a → p a = false := by
  induction l with
  | nil => intro a h; simp at h
  | cons b t ih =>
    intro a h
    by_cases hp : p b
    · rw [List.dropWhile_cons, if_pos hp] at h
      exact ih a h
    · rw [List.dropWhile_cons, if_neg hp] at h
      simp only [List.head?_cons, Option.some.injEq] at h
      rw [← h]
      exact Bool.of_not_eq_true hp

theorem dropWhile_eq_nil_of_all {β : Type} (p : β → Bool) (l : List β)
    (h : ∀ x ∈ l, p x) : l.dropWhile p = [] := by
  induction l with
  | nil => rfl
  | cons a t ih =>
    rw [List.dropWhile_cons, if_pos (h a (by simp))]
    exact ih (fun x hx => h x (by simp [hx]))

theorem all_of_dropWhile_eq_nil {β : Type} (p : β → Bool) (l : List β)
    (h : l.dropWhile p = []) : ∀ x ∈ l, p x := by
  induction l with
  | nil => simp
  | cons a t ih =>
    by_cases hp : p a
    · rw [List.dropWhile_cons, if_pos hp] at h
      intro x hx
      rcases List.mem_cons.mp hx with hx | hx
      · rwa [hx]
      · exact ih h x hx
    · rw [List.dropWhile_cons, if_neg hp] at h
      simp at h

theorem head?_append_left {β : Type} (A B : List β) (h : A ≠ []) :
    (A ++ B).head? = A.head? := by
  cases A with
  | nil => exact absurd rfl h
  | cons a t => rfl

/-- The last character of the fully stripped text is exactly its most
recent non-whitespace character. -/
theorem getLast?_pyStrip (l : List Char) :
    (pyStrip l).getLast? = lastNonWS l := by
  unfold pyStrip lastNonWS
  rw [List.getLast?_reverse]
  cases hld : l.dropWhile isPyWS with
  | nil =>
    have hall : ∀ x ∈ l, isPyWS x := all_of_dropWhile_eq_nil _ _ hld
    have hrev : l.reverse.dropWhile isPyWS = [] :=
      dropWhile_eq_nil_of_all _ _ (fun x hx => hall x (List.mem_reverse.mp hx))
    simp [hrev]
  | cons a t =>
    have hna : isPyWS a = false := by
      apply head?_dropWhile_false isPyWS l
      rw [hld]
      rfl
    have hsplit : l.reverse = (a :: t).reverse ++ (l.takeWhile isPyWS).reverse := by
      rw [← List.reverse_append, ← hld, List.takeWhile_append_dropWhile]
    have hne : (a :: t).reverse.dropWhile isPyWS ≠ [] := by
      intro hnil
      have hall := all_of_dropWhile_eq_nil _ _ hnil
      have : isPyWS a = true := hall a (by simp)
      rw [this] at hna
      exact Bool.noConfusion hna
    rw [hsplit, dropWhile_append_split]
    rw [if_neg (by simpa [List.isEmpty_iff] using hne)]
    exact (head?_append_left _ _ hne).symm

/-- The source's per-token test is exactly "the most recent non-whitespace
character of the current token is the pause marker" (or the finish
signal). -/
theorem chunkBoundary_eq_lastNonWS (c : TokenChunk) :
    chunkBoundary c =
      ((lastNonWS c.content == some '•') || (c.finish_reason == some "stop")) := by
  unfold chunkBoundary
  rw [← getLast?_pyStrip]
  cases hst : pyStrip c.content with
  | nil => simp
  | cons a t => simp

/-- Key invariant: between boundaries, the partial buffer never ends (modulo
trailing whitespace) in the pause marker, so testing the buffer and testing
the current token coincide. -/
theorem completionLoop_eq_spec :
    ∀ (stream : List TokenChunk) (idx : Nat) (acc : List Char),
    lastNonWS acc ≠ some '•' →
    specCompletionLoop idx acc stream = completionLoop idx acc stream := by
  intro stream
  induction stream with
  | nil => intro idx acc _; rfl
  | cons c rest ih =>
    intro idx acc hacc
    have hbeq : specBoundary (acc ++ c.content) c = chunkBoundary c := by
      rw [chunkBoundary_eq_lastNonWS]
      unfold specBoundary
      rw [lastNonWS_append]
      cases h : lastNonWS c.content with
      | some x => rfl
      | none =>
        have hfalse : (lastNonWS acc == some '•') = false := by
          cases hx : lastNonWS acc with
          | none => rfl
          | some y =>
            have hy : y ≠ '•' := by
              intro hy
              exact hacc (by rw [hx, hy])
            simpa using hy
        simp [hfalse]
    simp only [specCompletionLoop, completionLoop, hbeq]
    by_cases hb : chunkBoundary c
    · rw [if_pos hb, if_pos hb, ih (idx + 1) [] (by simp [lastNonWS])]
    · rw [if_neg hb, if_neg hb]
      apply ih
      rw [lastNonWS_append]
      cases h : lastNonWS c.content with
      | some x =>
        intro hx
        simp only [Option.some.injEq] at hx
        rw [chunkBoundary_eq_lastNonWS, h, hx] at hb
        simp at hb
      | none => exact hacc

/-- C7: during `completion`, a chunk is dispatched exactly at those points
where the most recent non-whitespace accumulated character of the partial
buffer is the pause marker `•`, or the stream reports completion; at each
boundary the partial text (including the current token) is dispatched and
the buffer cleared, and at no other point — i.e. the source loop coincides
with the specification-worded loop on every token stream. -/
theorem completion_eq_specCompletion (idx0 : Nat) (stream : List TokenChunk) :
    completion idx0 stream = specCompletion idx0 stream :=
  (completionLoop_eq_spec stream idx0 [] (by simp [lastNonWS])).symm

/-- The indices attached to the replies of one `completion` call continue
from the incoming `partial_response_index`, increasing by exactly 1 per
dispatched chunk; the stored index afterwards has advanced by the number of
dispatched chunks. -/
theorem completionLoop_indices :
    ∀ (stream : List TokenChunk) (idx : Nat) (acc : List Char),
    (completionLoop idx acc stream).2.map (fun r => r.chunk_index) =
      List.range' idx (stream.countP chunkBoundary) ∧
    (completionLoop idx acc stream).1 = idx + stream.countP chunkBoundary := by
  intro stream
  induction stream with
  | nil =>
    intro idx acc
    simp [completionLoop]
  | cons c rest ih =>
    intro idx acc
    by_cases hb : chunkBoundary c
    · have hcount : (c :: rest).countP chunkBoundary =
          rest.countP chunkBoundary + 1 := by
        rw [List.countP_cons, if_pos hb]
      simp only [completionLoop, if_pos hb, hcount, List.map_cons]
      refine ⟨?_, ?_⟩
      · rw [(ih (idx + 1) []).1]
        rw [List.range'_succ]
      · rw [(ih (idx + 1) []).2]
        omega
    · have hcount : (c :: rest).countP chunkBoundary =
          rest.countP chunkBoundary := by
        rw [List.countP_cons, if_neg hb]
        omega
      simp only [completionLoop, if_neg hb, hcount]
      exact ih idx (acc ++ c.content)

/-- C4 (amended): within one `completion` call the dispatched chunks carry
consecutive sequence numbers incrementing by exactly 1 per chunk — but they
start at the service's persistent `partial_response_index` (0 only at
service construction, `initialResponseIndex`), which `completion` never
resets; a second call on the same session continues where the first one
stopped.  See `completion_second_call_starts_nonzero` for the
counterexample to the original claim. -/
theorem completion_indices_consecutive (idx0 : Nat) (stream : List TokenChunk) :
    (completion idx0 stream).2.map (fun r => r.chunk_index) =
      List.range' idx0 (stream.countP chunkBoundary) ∧
    (completion idx0 stream).1 = idx0 + stream.countP chunkBoundary :=
  completionLoop_indices stream idx0 []

/-- C4 counterexample: a session's first `completion` call (entered with the
constructor's index 0) dispatches its chunk with sequence number 0; a second
`completion` call on the same service re-enters with the persisted index 1,
and its first dispatched chunk carries sequence number 1, not 0. -/
theorem completion_second_call_starts_nonzero :
    ((completion (completion initialResponseIndex
        [⟨"Hi•".data, none⟩]).1 [⟨"Hi•".data, none⟩]).2.map
          (fun r => r.chunk_index) = [1]) ∧
    (1 : Nat) ≠ 0 := by decide

/-- C9: a token stream whose finish signal arrives right after a chunk was
dispatched at the pause marker makes `completion` dispatch a final reply
with empty text that still consumes sequence number 1; the synthesis stage
(`generate`) skips the empty-text chunk, so sequence number 1 is never
submitted to the reorder buffer — only chunk 0 is. -/
theorem empty_final_chunk_consumes_index :
    (completion 0 [⟨"Hi•".data, none⟩, ⟨[], some "stop"⟩]).2 =
      [⟨0, "Hi•".data⟩, ⟨1, []⟩] ∧
    (completion 0 [⟨"Hi•".data, none⟩, ⟨[], some "stop"⟩]).1 = 2 ∧
    ((completion 0 [⟨"Hi•".data, none⟩, ⟨[], some "stop"⟩]).2.filterMap
        (fun r => generate (fun t => t) ⟨some r.chunk_index, r.chunk_text⟩)).map
      (fun e => e.1) = [some 0] := by decide

/-- C3 counterexample: on a triggering interim transcript (marks
outstanding, length 7 > 5) the handler sends the clear directive tagged
with the session's stream identifier — but the outstanding-marks set is NOT
cleared (it still holds the mark), and the only effects are the log and the
clear frame: no reset signal to the stream service exists. -/
theorem interruption_leaves_marks :
    (handle_utterance ⟨some "SID1", none, some "SID1", [], ["m1"]⟩
        "abcdefg").1.marks = ["m1"] ∧
    (handle_utterance ⟨some "SID1", none, some "SID1", [], ["m1"]⟩
        "abcdefg").2 =
      [UtterEffect.logInterruption, UtterEffect.clear (some "SID1")] := by
  decide

/-- C3 (amended): when an interim transcript arrives while the
outstanding-marks set is non-empty and the transcript is longer than the
5-character threshold, the handler sends exactly one flush/clear directive
tagged with the session's stream identifier and leaves the session state —
including the outstanding-marks set — completely unchanged (no buffer reset
is signalled; the stream service has no reset method); when the condition
does not hold, nothing is sent and nothing changes. -/
theorem handle_utterance_effects (c : PhoneConn) (text : String) :
    (¬c.marks.isEmpty → 5 < text.length →
      handle_utterance c text =
        (c, [UtterEffect.logInterruption, UtterEffect.clear c.stream_sid])) ∧
    (c.marks.isEmpty ∨ text.length ≤ 5 →
      handle_utterance c text = (c, [])) := by
  constructor
  · intro hm hl
    have hne : text ≠ "" := by
      intro h
      rw [h] at hl
      simp at hl
    rw [handle_utterance, if_pos ⟨hm, hne, hl⟩]
  · intro hcond
    rw [handle_utterance, if_neg]
    rintro ⟨hm, _, hl⟩
    rcases hcond with h | h
    · exact hm h
    · omega

theorem handle_utterance_effects_witness :
    (handle_utterance ⟨some "S", none, some "S", [], ["m"]⟩ "abcdefg" =
      (⟨some "S", none, some "S", [], ["m"]⟩,
       [UtterEffect.logInterruption, UtterEffect.clear (some "S")])) ∧
    (handle_utterance ⟨some "S", none, some "S", [], ["m"]⟩ "hi" =
      (⟨some "S", none, some "S", [], ["m"]⟩, [])) :=
  ⟨(handle_utterance_effects ⟨some "S", none, some "S", [], ["m"]⟩
      "abcdefg").1 (by decide) (by decide),
   (handle_utterance_effects ⟨some "S", none, some "S", [], ["m"]⟩
      "hi").2 (Or.inr (by decide))⟩

/-- C8 counterexample: a well-formed message with an unknown event kind
matches no branch of `handle_message` — it is ignored but produces no log
(the claim says unknown messages are logged); and a `stop` message leaves
the session state completely unchanged, producing only a log line — no
transition towards a Closing phase is performed by the handler (the session
closes only when the transport disconnects). -/
theorem unknown_message_not_logged :
    handle_message ⟨some "S", some "C", some "S", [some "C"], ["m"]⟩
        (InMsg.other (some "weird")) =
      (⟨some "S", some "C", some "S", [some "C"], ["m"]⟩, []) ∧
    (handle_message ⟨some "S", some "C", some "S", [some "C"], ["m"]⟩
        (InMsg.stop (some "S"))).1 =
      ⟨some "S", some "C", some "S", [some "C"], ["m"]⟩ := by
  decide

/-- C8 (amended): while a session is active each inbound message is
dispatched by event kind — `start` binds the stream and call identifiers
(also into the stream service and the GPT context), `media` forwards a
non-empty payload to the transcription collaborator, `mark` removes the
first occurrence of an acknowledged known token from the outstanding-marks
list, `stop` only logs the end of the media stream (closing happens on
transport disconnect, not here); invalid JSON is logged and ignored; a
message with an unknown event kind is silently ignored without logging;
no message terminates the session (every branch returns normally). -/
theorem handle_message_dispatch (c : PhoneConn) :
    (∀ ssid csid, handle_message c (InMsg.start ssid csid) =
      ({ c with
          stream_sid := ssid,
          call_sid := csid,
          ss_stream_sid := ssid,
          gpt_call_sids := c.gpt_call_sids ++ [csid] },
       [MsgEffect.logInfo "call started"])) ∧
    (∀ p, p ≠ "" → handle_message c (InMsg.media (some p)) =
      (c, [MsgEffect.forwardToTranscription p])) ∧
    (handle_message c (InMsg.media (some "")) = (c, [])) ∧
    (handle_message c (InMsg.media none) = (c, [])) ∧
    (∀ nm, nm ≠ "" → nm ∈ c.marks →
      handle_message c (InMsg.mark (some nm)) =
        ({ c with marks := c.marks.erase nm }, [])) ∧
    (∀ nm, nm ∉ c.marks → handle_message c (InMsg.mark (some nm)) = (c, [])) ∧
    (handle_message c (InMsg.mark none) = (c, [])) ∧
    (∀ sid, handle_message c (InMsg.stop sid) =
      (c, [MsgEffect.logInfo "media stream ended"])) ∧
    (∀ ev, handle_message c (InMsg.other ev) = (c, [])) ∧
    (handle_message c InMsg.invalidJson =
      (c, [MsgEffect.logError "invalid json"])) := by
  refine ⟨fun _ _ => rfl, ?_, by simp [handle_message], rfl, ?_, ?_, rfl,
    fun _ => rfl, fun _ => rfl, rfl⟩
  · intro p hp
    simp [handle_message, hp]
  · intro nm hne hmem
    simp [handle_message, hne, hmem]
  · intro nm hmem
    simp [handle_message, hmem]

theorem handle_message_dispatch_witness :
    handle_message ⟨none, none, some "", [], ["a", "b"]⟩
        (InMsg.mark (some "b")) =
      (⟨none, none, some "", [], ["a"]⟩, []) ∧
    handle_message ⟨none, none, some "", [], ["a", "b"]⟩
        (InMsg.media (some "payload")) =
      (⟨none, none, some "", [], ["a", "b"]⟩,
       [MsgEffect.forwardToTranscription "payload"]) := by
  constructor
  · have h := (handle_message_dispatch
      ⟨none, none, some "", [], ["a", "b"]⟩).2.2.2.2.1 "b"
      (by decide) (by decide)
    simpa using h
  · exact (handle_message_dispatch
      ⟨none, none, some "", [], ["a", "b"]⟩).2.1 "payload" (by decide)

end Fixly
